import Mathlib

/-!
# cudf: IPC device-pointer records and the chunked ORC reader

A shallow embedding of `cpp/src/interop/ipc.hpp` (the `IpcDevicePtr` record, its
`serialize` / `from_buffer` codec, `check_cu_status` and `get_ipc_ptr`) and of the
chunked reading interface declared in `cpp/include/cudf/io/detail/orc.hpp`.

Conventions of the embedding:
* a byte buffer (`std::string`, `uint8_t const*`) is a `List Byte`, a pointer into it
  is a position (a `Nat`);
* `int64_t` is an integer in `[-2^63, 2^63)`; its object representation is the
  8-byte little-endian two's complement one of the hosts CUDA runs on;
* `sizeof(cudaIpcMemHandle_t)` is a parameter `H` (the type comes from the CUDA
  headers), a handle is `H` bytes;
* the CUDA driver and runtime entry points are parameters (`Driver`);
* a read that leaves the buffer (undefined in C++) is `none`.
-/

namespace cudf
namespace ipc

/-! ## Bytes and machine integers -/

/-- One `char` / `uint8_t` of a buffer. -/
abbrev Byte := Fin 256

/-- The type `int64_t`: the integers of `[-2^63, 2^63)`. -/
abbrev int64_t := {v : Int // -9223372036854775808 ≤ v ∧ v < 9223372036854775808}

/-- Reduction of an integer to the `int64_t` with the same 64-bit pattern. -/
def wrap64 (z : Int) : int64_t :=
  ⟨(z + 9223372036854775808) % 18446744073709551616 - 9223372036854775808, by omega⟩

/-- The `n` low-order bytes of `v`, least significant first. -/
def toBytesLE : Nat → Nat → List Byte
  | 0, _ => []
  | n + 1, v => ⟨v % 256, Nat.mod_lt _ (by decide)⟩ :: toBytesLE n (v / 256)

/-- The number whose little-endian digits are the given bytes. -/
def ofBytesLE : List Byte → Nat
  | [] => 0
  | b :: bs => b.val + 256 * ofBytesLE bs

/-- Object representation of an `int64_t`: what `memcpy(dst, &x, sizeof(x))` copies. -/
def int64_bytes (x : int64_t) : List Byte :=
  toBytesLE 8 (x.val % 18446744073709551616).toNat

/-- The `int64_t` whose object representation is `bs`: what
`memcpy(&x, src, sizeof(x))` leaves in `x`. -/
def int64_of_bytes (bs : List Byte) : int64_t :=
  wrap64 (ofBytesLE bs)

/-! ## Buffers -/

/-- The call `s.resize(n)` of `std::string`: truncates, or pads with `'\0'`. -/
def resize (s : List Byte) (n : Nat) : List Byte :=
  s.take n ++ List.replicate (n - s.length) 0

/-- The call `memcpy(buf + pos, src, |src|)`: overwrites `|src|` bytes of `buf`
from position `pos` on (the callers write inside the buffer). -/
def memcpy_to (buf : List Byte) (pos : Nat) (src : List Byte) : List Byte :=
  buf.take pos ++ src ++ buf.drop (pos + src.length)

/-- The call `memcpy(&x, buf + pos, n)`: the `n` bytes of `buf` from position `pos`
on; `none` when they are not all inside the buffer. -/
def memcpy_from (buf : List Byte) (pos n : Nat) : Option {l : List Byte // l.length = n} :=
  if h : pos + n ≤ buf.length then
    some ⟨(buf.drop pos).take n, by rw [List.length_take, List.length_drop]; omega⟩
  else none

/-! ## `IpcDevicePtr` -/

/-- The type `cudaIpcMemHandle_t`: `H` opaque bytes. -/
abbrev cudaIpcMemHandle_t (H : Nat) := {l : List Byte // l.length = H}

/-- The struct `IpcDevicePtr`. -/
structure IpcDevicePtr (H : Nat) where
  handle : cudaIpcMemHandle_t H
  offset : int64_t
  size : int64_t
deriving DecidableEq

/-- The constant `sizeof(handle) + sizeof(offset) + sizeof(size)`. -/
def width (H : Nat) : Nat := H + 8 + 8

/-- The method `IpcDevicePtr::serialize`: the buffer `*p_bytes` after the call. -/
def IpcDevicePtr.serialize {H : Nat} (self : IpcDevicePtr H) (p_bytes : List Byte) :
    List Byte :=
  let this_size := H + 8 + 8
  let orig_size := p_bytes.length
  let bytes := resize p_bytes (orig_size + this_size)
  let ptr := orig_size
  let bytes := memcpy_to bytes ptr self.handle.val
  let ptr := ptr + H
  let bytes := memcpy_to bytes ptr (int64_bytes self.offset)
  let ptr := ptr + 8
  memcpy_to bytes ptr (int64_bytes self.size)

/-- The function `IpcDevicePtr::from_buffer`: the record written to `*out` and the
returned pointer, for the pointer `buf + ptr`. -/
def IpcDevicePtr.from_buffer {H : Nat} (buf : List Byte) (ptr : Nat) :
    Option (IpcDevicePtr H × Nat) :=
  match memcpy_from buf ptr H with
  | none => none
  | some handle =>
    let ptr := ptr + H
    match memcpy_from buf ptr 8 with
    | none => none
    | some offset =>
      let ptr := ptr + 8
      match memcpy_from buf ptr 8 with
      | none => none
      | some size =>
        let ptr := ptr + 8
        some (⟨handle, int64_of_bytes offset.val, int64_of_bytes size.val⟩, ptr)

/-- Successive `serialize` calls on one buffer, one per record, in order. -/
def serialize_all {H : Nat} (rs : List (IpcDevicePtr H)) (p_bytes : List Byte) : List Byte :=
  rs.foldl (fun bytes r => r.serialize bytes) p_bytes

/-- The bytes of the buffer `buf` from position `pos` up to `pos + n`. -/
def slice (buf : List Byte) (pos n : Nat) : List Byte :=
  (buf.drop pos).take n

/-- Successive `from_buffer` calls on one buffer, `n` of them, the first at
the pointer `buf + ptr` and each next one at the pointer the call before returned:
the records read, in order, and the last pointer returned. -/
def from_buffer_all {H : Nat} (buf : List Byte) : Nat → Nat → Option (List (IpcDevicePtr H) × Nat)
  | 0, ptr => some ([], ptr)
  | n + 1, ptr =>
    match IpcDevicePtr.from_buffer buf ptr with
    | none => none
    | some (r, next) =>
      match from_buffer_all buf n next with
      | none => none
      | some (rs, last) => some (r :: rs, last)

/-! ## The CUDA driver and `get_ipc_ptr` -/

/-- The value `CUDA_SUCCESS` of `CUresult`. -/
def CUDA_SUCCESS : Nat := 0

/-- The value `cudaSuccess` of `cudaError_t`. -/
def cudaSuccess : Nat := 0

/-- The CUDA entry points that `ipc.hpp` calls. Each one returns its status code
first, then what it writes through its out-parameters. Addresses (`CUdeviceptr`,
`uint8_t const*`) are natural numbers. -/
structure Driver (H : Nat) where
  /-- Status, `*pbase` and `*psize` for the address `dptr`. -/
  cuMemGetAddressRange : Nat → Nat × Nat × Nat
  /-- Status and `*pStr` for a `CUresult`. -/
  cuGetErrorString : Nat → Nat × String
  /-- Status and `*handle` for the address `devPtr`. -/
  cudaIpcGetMemHandle : Nat → Nat × cudaIpcMemHandle_t H

/-- A call into the CUDA driver or runtime, with its input argument. -/
inductive DriverCall where
  | cuMemGetAddressRange (dptr : Nat)
  | cuGetErrorString (res : Nat)
  | cudaIpcGetMemHandle (devPtr : Nat)
deriving DecidableEq

/-- Modelled from the spec: the exceptions of `cudf/utilities/error.hpp`, a header
that is not among the sources. A `logic_error` carries its message, a `cuda_error`
the status of the failed CUDA runtime call; both belong to the resource errors that
the export path surfaces to its caller. -/
inductive cudf_error where
  | logic_error (what : String)
  | cuda_error (status : Nat)
deriving DecidableEq

/-- Modelled from the spec: the macro `CUDF_FAIL` of `cudf/utilities/error.hpp`, a
header that is not among the sources: it raises a `logic_error` for the given
reason. -/
def CUDF_FAIL (reason : String) : cudf_error := cudf_error.logic_error reason

/-- The function `check_cu_status`: the driver calls it makes and whether it returns
or throws. -/
def check_cu_status {H : Nat} (d : Driver H) (res : Nat) :
    List DriverCall × Except cudf_error Unit :=
  if res ≠ CUDA_SUCCESS then
    let e := d.cuGetErrorString res
    if e.1 ≠ CUDA_SUCCESS then
      ([DriverCall.cuGetErrorString res],
        Except.error (CUDF_FAIL "Unable to get CU error explanation."))
    else
      ([DriverCall.cuGetErrorString res], Except.error (cudf_error.logic_error e.2))
  else ([], Except.ok ())

/-- The difference `p - q` of two `uint8_t const*`, a `ptrdiff_t`. -/
def ptrdiff (p q : Nat) : int64_t := wrap64 ((p : Int) - (q : Int))

/-- The function `get_ipc_ptr`: the driver calls it makes, in order, and the record
it returns or the exception it throws. The macro `CUDF_CUDA_TRY` (of the absent
`cudf/utilities/error.hpp`) throws a `cuda_error` for a status other than
`cudaSuccess`. -/
def get_ipc_ptr {H : Nat} (d : Driver H) (ptr : Nat) (size : int64_t) :
    List DriverCall × Except cudf_error (IpcDevicePtr H) :=
  let q := d.cuMemGetAddressRange ptr
  let pbase := q.2.1
  let c := check_cu_status d q.1
  match c.2 with
  | Except.error e => (DriverCall.cuMemGetAddressRange ptr :: c.1, Except.error e)
  | Except.ok _ =>
    let base := pbase
    let non_const := ptr
    let t := d.cudaIpcGetMemHandle non_const
    let calls := DriverCall.cuMemGetAddressRange ptr :: c.1
      ++ [DriverCall.cudaIpcGetMemHandle non_const]
    if t.1 ≠ cudaSuccess then (calls, Except.error (cudf_error.cuda_error t.1))
    else (calls, Except.ok ⟨t.2, ptrdiff ptr base, size⟩)

/-- The address `p` lies inside the allocation `[base, base + S)`. An allocation is
an object of the address space: it has fewer than `2^63` bytes, so that the
difference of two of its addresses is a `ptrdiff_t`. -/
def InAllocation (base S p : Nat) : Prop :=
  base ≤ p ∧ p < base + S ∧ S < 9223372036854775808

instance (base S p : Nat) : Decidable (InAllocation base S p) := by
  unfold InAllocation
  infer_instance

/-- A handle of 8 bytes that spells out an address. -/
def sample_handle (p : Nat) : cudaIpcMemHandle_t 8 := ⟨toBytesLE 8 p, rfl⟩

/-- The `int64_t` 8. -/
def sample_size : int64_t := ⟨8, by decide⟩

/-- The `int64_t` 100. -/
def large_size : int64_t := ⟨100, by decide⟩

/-- The `int64_t` -1. -/
def minus_one : int64_t := ⟨-1, by decide⟩

/-- A record of handle width 2 with a negative offset. -/
def sample_record : IpcDevicePtr 2 := ⟨⟨[1, 2], rfl⟩, minus_one, sample_size⟩

/-- A driver that knows one allocation, the 16 bytes from address 4096 on. Its export
returns the token of the allocation for every address inside it. Other addresses
fail with status 1 (`CUDA_ERROR_INVALID_VALUE`, `cudaErrorInvalidValue`). -/
def sample_driver : Driver 8 where
  cuMemGetAddressRange p := if 4096 ≤ p ∧ p < 4112 then (0, 4096, 16) else (1, 0, 0)
  cuGetErrorString res := if res = 1 then (0, "invalid argument") else (1, "")
  cudaIpcGetMemHandle p :=
    if 4096 ≤ p ∧ p < 4112 then (0, sample_handle 4096) else (1, sample_handle 0)

end ipc

namespace io
namespace orc
namespace detail

/-! ## The chunked reader

`orc.hpp` only declares `reader` and `chunked_reader`; what follows is the control
logic the specification gives for them. The decode layer is abstracted: a raw unit
comes with the rows it decodes to, and a table is the list of its rows. -/

/-- Modelled from the spec: a `RawUnit`, "the smallest independently-decodable piece
of the file format ... with an associated row count and an estimated decoded size"
(the definitions of the reader are not among the sources). The rows are what the
decode layer makes of the unit, its row count is their number. -/
structure RawUnit (Row : Type) where
  rows : List Row
  decoded_size : Nat
  raw_bytes : Nat

/-- Modelled from the spec: `ChunkLimits`, the three constructor arguments of
`chunked_reader`; `none` is an unbounded limit. -/
structure ChunkLimits where
  output_size_limit : Option Nat
  data_read_limit : Option Nat
  output_row_granularity : Nat

/-- Modelled from the spec: `ReadState`, "cursor over ordered RawUnits across all
sources, buffered decoded-but-unemitted rows, exhausted: bool"; the cursor is kept
as the units not yet consumed. -/
structure ReadState (Row : Type) where
  pending : List (RawUnit Row)
  buffered : List Row
  exhausted : Bool

/-- A byte count respects a limit. -/
def within (limit : Option Nat) (n : Nat) : Bool :=
  match limit with
  | none => true
  | some l => decide (n ≤ l)

/-- The number of leading units that fit both byte limits together, given the
decoded size and the raw bytes already taken. -/
def fitting_run {Row : Type} (lim : ChunkLimits) (size bytes : Nat) :
    List (RawUnit Row) → Nat
  | [] => 0
  | u :: us =>
    if within lim.output_size_limit (size + u.decoded_size)
        && within lim.data_read_limit (bytes + u.raw_bytes) then
      fitting_run lim (size + u.decoded_size) (bytes + u.raw_bytes) us + 1
    else 0

/-- Modelled from the spec: the Chunk Planner (its definition is not among the
sources): the length of the "maximal contiguous run of not-yet-emitted RawUnits"
within both limits, "except that if the very first unit alone already exceeds a
limit, it is selected anyway". -/
def plan {Row : Type} (lim : ChunkLimits) (pending : List (RawUnit Row)) : Nat :=
  match pending with
  | [] => 0
  | _ :: _ => max 1 (fitting_run lim 0 0 pending)

/-- The table the decode layer produces for a run of units. -/
def decode {Row : Type} (run : List (RawUnit Row)) : List Row :=
  (run.map RawUnit.rows).flatten

/-- Modelled from the spec: the state of a `chunked_reader` after construction (the
constructor is only declared in `orc.hpp`): the units of all sources in order,
nothing buffered, not exhausted. -/
def chunked_reader {Row : Type} (sources : List (List (RawUnit Row))) : ReadState Row :=
  ⟨sources.flatten, [], false⟩

/-- Modelled from the spec: `chunked_reader::has_next`, "true iff ReadState is not
exhausted" (the method is only declared in `orc.hpp`). The flag is the one of
`ReadState`: clear at construction (the state machine starts with
`INIT → (has_next=true)`), set by `read_chunk` once neither units nor buffered rows
remain. -/
def has_next {Row : Type} (s : ReadState Row) : Bool := !s.exhausted

/-- The failure of a call made out of sequence. -/
inductive SequencingError where
  | no_next
deriving DecidableEq

/-- Modelled from the spec: `chunked_reader::read_chunk` (the method is only declared
in `orc.hpp`). Without a next chunk it fails. With units left it "runs the Chunk
Planner to select the next run, decodes that run, concatenates it with any buffered
rows, slices at the granularity boundary" (the largest multiple of the granularity
within the available rows), "buffers the remainder, updates the cursor, and returns
the non-remainder slice". With no unit left it returns the buffered remainder, the
final chunk. The state is exhausted when neither units nor buffered rows remain. -/
def read_chunk {Row : Type} (lim : ChunkLimits) (s : ReadState Row) :
    Except SequencingError (List Row × ReadState Row) :=
  if has_next s then
    match s.pending with
    | [] => Except.ok (s.buffered, ⟨[], [], true⟩)
    | _ :: _ =>
      let k := plan lim s.pending
      let table := s.buffered ++ decode (s.pending.take k)
      let n := table.length / lim.output_row_granularity * lim.output_row_granularity
      let pending := s.pending.drop k
      let buffered := table.drop n
      Except.ok (table.take n, ⟨pending, buffered, pending.isEmpty && buffered.isEmpty⟩)
  else Except.error SequencingError.no_next

/-- The loop `while (has_next()) read_chunk()`, for at most `fuel` calls: the chunks
returned, in order, and the state it stops in. -/
def read_chunks {Row : Type} (lim : ChunkLimits) :
    Nat → ReadState Row → List (List Row) × ReadState Row
  | 0, s => ([], s)
  | fuel + 1, s =>
    if has_next s then
      match read_chunk lim s with
      | Except.ok (chunk, s1) =>
        let rest := read_chunks lim fuel s1
        (chunk :: rest.1, rest.2)
      | Except.error _ => ([], s)
    else ([], s)

/-- The chunked session over the given sources: `read_chunk` is called while
`has_next` holds. Every call but the last consumes a unit, so one call more than
there are units is enough. -/
def read_all_chunks {Row : Type} (lim : ChunkLimits) (sources : List (List (RawUnit Row))) :
    List (List Row) × ReadState Row :=
  read_chunks lim (sources.flatten.length + 1) (chunked_reader sources)

/-- Modelled from the spec: the limits of the single-shot reader, "unbounded limits
and `output_row_granularity = 1`". -/
def single_shot_limits : ChunkLimits := ⟨none, none, 1⟩

/-- Modelled from the spec: `reader::read` (only declared in `orc.hpp`): "this same
controller configured with unbounded limits and `output_row_granularity = 1`", read
with one `read_chunk` call. -/
def reader_read {Row : Type} (sources : List (List (RawUnit Row))) :
    Except SequencingError (List Row) :=
  match read_chunk single_shot_limits (chunked_reader sources) with
  | Except.ok (table, _) => Except.ok table
  | Except.error e => Except.error e

/-! ## The writer

`orc.hpp` only declares `writer`; what follows is the control logic the
specification gives for it. The encode layer and the sink are abstracted: the sink's
content is the list of the pieces written to it. -/

/-- Modelled from the spec: a piece of the sink's content (the sink and the encode
layer are not among the sources): a stripe encoded from the rows of one `write`, what
a failing `write` left behind, or one of the "file-level index, footer, and
trailer/postscript structures" that finalisation writes. -/
inductive SinkItem (Row : Type) where
  | stripe (rows : List Row)
  | fragment (bytes : List Nat)
  | file_index
  | footer (rows_total : Nat)
  | postscript

/-- Modelled from the spec: `WriteState`, "sink, accumulated stripe metadata,
aggregated footer statistics, finalized: bool, aborted: bool", with the mode flag the
writer is constructed with. The stripe metadata is the row count of each stripe, the
statistics their sum. -/
structure WriteState (Row : Type) where
  single_write_mode : Bool
  sink : List (SinkItem Row)
  stripes : List Nat
  statistics : Nat
  finalized : Bool
  aborted : Bool

/-- What a `writer` call can fail with. -/
inductive WriterError where
  | sequencing
  | sink_failure
deriving DecidableEq

/-- Modelled from the spec: the state of a `writer` after construction (the
constructors are only declared in `orc.hpp`): nothing written, neither finalized nor
aborted. -/
def writer (Row : Type) (single_write_mode : Bool) : WriteState Row :=
  ⟨single_write_mode, [], [], 0, false, false⟩

/-- The pieces that finalisation writes: index, footer with the aggregated
statistics, postscript. -/
def trailer {Row : Type} (s : WriteState Row) : List (SinkItem Row) :=
  [SinkItem.file_index, SinkItem.footer s.statistics, SinkItem.postscript]

/-- Modelled from the spec: `writer::write` (only declared in `orc.hpp`): "appends
chunk's rows to the in-progress output as ... newly encoded stripes; updates
aggregated footer statistics"; after `close()` or `skip_close()`, and for a second
call in single-shot mode, it is a programming error. The sink may fail: `failure`
holds what a failing call leaves in the sink, "the sink's partial content
indeterminate". -/
def writer_write {Row : Type} (s : WriteState Row) (table : List Row)
    (failure : Option (List Nat)) : Except WriterError Unit × WriteState Row :=
  if s.finalized || s.aborted then (Except.error WriterError.sequencing, s)
  else if s.single_write_mode && !s.stripes.isEmpty then
    (Except.error WriterError.sequencing, s)
  else
    match failure with
    | some bytes =>
      (Except.error WriterError.sink_failure,
        { s with sink := s.sink ++ [SinkItem.fragment bytes] })
    | none =>
      (Except.ok (),
        { s with sink := s.sink ++ [SinkItem.stripe table],
                 stripes := s.stripes ++ [table.length],
                 statistics := s.statistics + table.length })

/-- Modelled from the spec: `writer::close` (only declared in `orc.hpp`): "finalizes
and flushes file-level index, footer, and trailer/postscript structures to the sink;
marks WriteState finalized"; "neither `close()` twice nor `close()` after
`skip_close()` is permitted". -/
def writer_close {Row : Type} (s : WriteState Row) :
    Except WriterError Unit × WriteState Row :=
  if s.finalized || s.aborted then (Except.error WriterError.sequencing, s)
  else (Except.ok (), { s with sink := s.sink ++ trailer s, finalized := true })

/-- Modelled from the spec: `writer::skip_close` (only declared in `orc.hpp`): "marks
WriteState aborted without emitting any footer/trailer"; "after `skip_close()`, no
subsequent call is permitted". -/
def writer_skip_close {Row : Type} (s : WriteState Row) :
    Except WriterError Unit × WriteState Row :=
  if s.aborted then (Except.error WriterError.sequencing, s)
  else (Except.ok (), { s with aborted := true })

/-- Modelled from the spec: the destructor `writer::~writer` (only declared in
`orc.hpp`): the content of the sink once the writer is destroyed. "After
`skip_close()`, destruction performs no further I/O", nor does it after `close()`;
a writer destroyed without either is finalised then, which is why abandoning a
session "must be preceded by `skip_close()` if any `write()` has failed". -/
def writer_destroy {Row : Type} (s : WriteState Row) : List (SinkItem Row) :=
  if s.finalized || s.aborted then s.sink else s.sink ++ trailer s

/-- A call of a method of `writer`; a `write` comes with its table and with what the
sink does. -/
inductive WriterCall (Row : Type) where
  | write (table : List Row) (failure : Option (List Nat))
  | close
  | skip_close

/-- The state of the writer after one call. -/
def writer_step {Row : Type} (s : WriteState Row) : WriterCall Row → WriteState Row
  | WriterCall.write table failure => (writer_write s table failure).2
  | WriterCall.close => (writer_close s).2
  | WriterCall.skip_close => (writer_skip_close s).2

/-- The state of the writer after a sequence of calls. -/
def writer_run {Row : Type} (s : WriteState Row) (calls : List (WriterCall Row)) :
    WriteState Row :=
  calls.foldl writer_step s

/-- A piece of the sink's content is part of the file footer or the
postscript/trailer. -/
def SinkItem.is_trailer {Row : Type} : SinkItem Row → Bool
  | SinkItem.footer _ => true
  | SinkItem.postscript => true
  | _ => false

/-- The content of a sink holds a footer or a postscript. -/
def has_trailer {Row : Type} (sink : List (SinkItem Row)) : Bool :=
  sink.any SinkItem.is_trailer

/-- The `write` calls for a list of tables with the sink's behaviour at each. -/
def write_calls {Row : Type} (ws : List (List Row × Option (List Nat))) :
    List (WriterCall Row) :=
  ws.map (fun w => WriterCall.write w.1 w.2)

end detail
end orc
end io

namespace ipc

/-! ## Codec lemmas -/

theorem toBytesLE_length (n v : Nat) : (toBytesLE n v).length = n := by
  induction n generalizing v with
  | zero => rfl
  | succ n ih => simp [toBytesLE, ih]

theorem ofBytesLE_toBytesLE (n v : Nat) : ofBytesLE (toBytesLE n v) = v % 256 ^ n := by
  induction n generalizing v with
  | zero => simp [toBytesLE, ofBytesLE, Nat.mod_one]
  | succ n ih =>
    simp only [toBytesLE, ofBytesLE, ih]
    rw [pow_succ, Nat.mul_comm (256 ^ n) 256, Nat.mod_mul]

theorem ofBytesLE_lt (bs : List Byte) : ofBytesLE bs < 256 ^ bs.length := by
  induction bs with
  | nil => simp [ofBytesLE]
  | cons b bs ih =>
    simp only [ofBytesLE, List.length_cons, pow_succ]
    have := b.isLt
    omega

theorem toBytesLE_ofBytesLE (bs : List Byte) :
    toBytesLE bs.length (ofBytesLE bs) = bs := by
  induction bs with
  | nil => rfl
  | cons b bs ih =>
    have hb := b.isLt
    simp only [List.length_cons, toBytesLE, ofBytesLE]
    have h1 : (b.val + 256 * ofBytesLE bs) % 256 = b.val := by omega
    have h2 : (b.val + 256 * ofBytesLE bs) / 256 = ofBytesLE bs := by omega
    rw [h2, ih]
    congr 1
    exact Fin.ext h1

theorem int64_bytes_length (x : int64_t) : (int64_bytes x).length = 8 :=
  toBytesLE_length _ _

theorem int64_of_bytes_bytes (x : int64_t) : int64_of_bytes (int64_bytes x) = x := by
  obtain ⟨v, hlo, hhi⟩ := x
  apply Subtype.ext
  simp only [int64_of_bytes, int64_bytes, wrap64, ofBytesLE_toBytesLE]
  have h256 : (256 : Nat) ^ 8 = 18446744073709551616 := by norm_num
  rw [h256]
  have hnn : (0 : Int) ≤ v % 18446744073709551616 := Int.emod_nonneg _ (by norm_num)
  have hlt : (v % 18446744073709551616).toNat < 18446744073709551616 := by omega
  rw [Nat.mod_eq_of_lt hlt, Int.toNat_of_nonneg hnn]
  omega

theorem int64_bytes_of_bytes (bs : List Byte) (h : bs.length = 8) :
    int64_bytes (int64_of_bytes bs) = bs := by
  have hlt := ofBytesLE_lt bs
  rw [h] at hlt
  have h256 : (256 : Nat) ^ 8 = 18446744073709551616 := by norm_num
  rw [h256] at hlt
  have hv : ((int64_of_bytes bs).val % 18446744073709551616).toNat = ofBytesLE bs := by
    simp only [int64_of_bytes, wrap64]
    omega
  unfold int64_bytes
  rw [hv]
  have := toBytesLE_ofBytesLE bs
  rw [h] at this
  exact this

theorem resize_grow (s : List Byte) (k : Nat) :
    resize s (s.length + k) = s ++ List.replicate k 0 := by
  unfold resize
  rw [List.take_of_length_le (by omega)]
  congr 2
  omega

theorem memcpy_to_mid (pre old post src : List Byte) (p : Nat) (hp : p = pre.length)
    (h : old.length = src.length) :
    memcpy_to (pre ++ (old ++ post)) p src = pre ++ (src ++ post) := by
  subst hp
  unfold memcpy_to
  rw [List.take_left, List.append_assoc]
  congr 2
  rw [List.drop_append, ← h, List.drop_left]

theorem serialize_eq {H : Nat} (r : IpcDevicePtr H) (b : List Byte) :
    r.serialize b = b ++ (r.handle.val ++ (int64_bytes r.offset ++ int64_bytes r.size)) := by
  unfold IpcDevicePtr.serialize
  simp only []
  rw [resize_grow]
  have hz : List.replicate (H + 8 + 8) (0 : Byte)
      = List.replicate H 0 ++ (List.replicate 8 0 ++ (List.replicate 8 0 ++ [])) := by
    rw [List.append_nil, ← List.replicate_add, ← List.replicate_add, Nat.add_assoc]
  rw [hz, memcpy_to_mid b _ _ _ _ rfl (by simp [r.handle.property])]
  rw [← List.append_assoc b, memcpy_to_mid (b ++ r.handle.val) _ _ _ _
    (by simp [r.handle.property]) (by simp [int64_bytes_length])]
  rw [← List.append_assoc (b ++ r.handle.val), memcpy_to_mid _ _ _ _ _
    (by simp [r.handle.property, int64_bytes_length]; omega) (by simp [int64_bytes_length])]
  simp

theorem memcpy_from_mid (pre mid post : List Byte) (p n : Nat) (hp : p = pre.length)
    (hn : mid.length = n) :
    memcpy_from (pre ++ (mid ++ post)) p n = some ⟨mid, hn⟩ := by
  subst hp
  subst hn
  unfold memcpy_from
  rw [dif_pos (by simp)]
  congr 2
  rw [List.drop_left, List.take_left]

theorem from_buffer_mid {H : Nat} (pre post : List Byte) (h : cudaIpcMemHandle_t H)
    (o s : List Byte) (ho : o.length = 8) (hs : s.length = 8) :
    IpcDevicePtr.from_buffer (pre ++ (h.val ++ (o ++ (s ++ post)))) pre.length
      = some (⟨h, int64_of_bytes o, int64_of_bytes s⟩, pre.length + width H) := by
  unfold IpcDevicePtr.from_buffer
  rw [memcpy_from_mid pre h.val _ _ _ rfl h.property]
  simp only []
  rw [← List.append_assoc pre, memcpy_from_mid (pre ++ h.val) o _ _ _
    (by simp [h.property]) ho]
  simp only []
  rw [← List.append_assoc (pre ++ h.val), memcpy_from_mid _ s _ _ _
    (by simp [h.property, ho]; omega) hs]
  simp only [width, Nat.add_assoc]

theorem from_buffer_serialize {H : Nat} (r : IpcDevicePtr H) (b post : List Byte) :
    IpcDevicePtr.from_buffer (r.serialize b ++ post) b.length = some (r, b.length + width H) := by
  rw [serialize_eq]
  have := from_buffer_mid b post r.handle (int64_bytes r.offset) (int64_bytes r.size)
    (int64_bytes_length _) (int64_bytes_length _)
  simp only [List.append_assoc]
  rw [this, int64_of_bytes_bytes, int64_of_bytes_bytes]

theorem serialize_length {H : Nat} (r : IpcDevicePtr H) (b : List Byte) :
    (r.serialize b).length = b.length + width H := by
  rw [serialize_eq]
  simp [r.handle.property, int64_bytes_length, width]

/-- Claim C1: serialising a record into an empty buffer and reading it back at cursor 0
returns the same record and the cursor `width`, which is the length of the buffer. -/
theorem from_buffer_serialize_empty {H : Nat} (r : IpcDevicePtr H) :
    IpcDevicePtr.from_buffer (r.serialize []) 0 = some (r, width H)
      ∧ (r.serialize []).length = width H
      ∧ width H = H + 8 + 8 := by
  refine ⟨?_, ?_, rfl⟩
  · have := from_buffer_serialize r [] []
    simpa using this
  · simpa using serialize_length r []

theorem serialize_append {H : Nat} (r : IpcDevicePtr H) (b : List Byte) :
    r.serialize b = b ++ r.serialize [] := by
  rw [serialize_eq, serialize_eq r []]
  simp

theorem serialize_all_eq {H : Nat} (rs : List (IpcDevicePtr H)) (b : List Byte) :
    serialize_all rs b = b ++ (rs.map (fun r => r.serialize [])).flatten := by
  induction rs generalizing b with
  | nil => simp [serialize_all]
  | cons r rs ih =>
    have step : serialize_all (r :: rs) b = serialize_all rs (r.serialize b) := rfl
    rw [step, ih, serialize_append r b]
    simp

theorem slice_flatten (w : Nat) (bs : List (List Byte)) (hw : ∀ x ∈ bs, x.length = w)
    (i : Nat) (hi : i < bs.length) :
    slice bs.flatten (i * w) w = bs.get ⟨i, hi⟩ := by
  induction bs generalizing i with
  | nil => simp at hi
  | cons x xs ih =>
    have hx : x.length = w := hw x (List.mem_cons_self _ _)
    cases i with
    | zero =>
      simp only [slice, List.flatten_cons, Nat.zero_mul, List.drop_zero]
      rw [← hx, List.take_left]
      rfl
    | succ i =>
      have hi2 : i < xs.length := by simpa using hi
      have := ih (fun y hy => hw y (List.mem_cons_of_mem _ hy)) i hi2
      simp only [List.get_cons_succ, List.flatten_cons]
      rw [← this]
      unfold slice
      have e : (i + 1) * w = x.length + i * w := by rw [hx, Nat.succ_mul, Nat.add_comm]
      rw [e, List.drop_append]

/-- Claim C2: after serialising `r1` and then `r2` into an empty buffer, `from_buffer`
at cursor 0 returns `r1` and the cursor `width`, and `from_buffer` at that cursor
returns `r2` and the cursor `2 * width`, the length of the buffer. -/
theorem from_buffer_serialize_two {H : Nat} (r1 r2 : IpcDevicePtr H) :
    IpcDevicePtr.from_buffer (r2.serialize (r1.serialize [])) 0 = some (r1, width H)
      ∧ IpcDevicePtr.from_buffer (r2.serialize (r1.serialize [])) (width H)
          = some (r2, 2 * width H)
      ∧ (r2.serialize (r1.serialize [])).length = 2 * width H := by
  have hlen : (r1.serialize []).length = width H := by simpa using serialize_length r1 []
  refine ⟨?_, ?_, ?_⟩
  · rw [serialize_append r2]
    simpa using from_buffer_serialize r1 [] (r2.serialize [])
  · have := from_buffer_serialize r2 (r1.serialize []) []
    rw [hlen, List.append_nil] at this
    rw [this, Nat.two_mul]
  · rw [serialize_length, hlen, Nat.two_mul]

theorem slice_mid (pre mid post : List Byte) (p n : Nat) (hp : p = pre.length)
    (hn : n = mid.length) : slice (pre ++ (mid ++ post)) p n = mid := by
  subst hp
  subst hn
  unfold slice
  rw [List.drop_left, List.take_left]

/-- Claim C3: `serialize` appends to the buffer the `H` bytes of the handle, then the
8 bytes of the offset, then the 8 bytes of the size, and nothing else, so the three
fields stand at the positions `|b|`, `|b| + H` and `|b| + H + 8`; `from_buffer` at a
cursor with `width` bytes after it takes the handle from the `H` bytes at the cursor,
the offset from the next 8 bytes and the size from the 8 bytes after those. -/
theorem serialize_layout {H : Nat} (b : List Byte) (r : IpcDevicePtr H)
    (buf : List Byte) (cursor : Nat) (hc : cursor + width H ≤ buf.length) :
    (r.serialize b = b ++ r.handle.val ++ int64_bytes r.offset ++ int64_bytes r.size
      ∧ r.handle.val.length = H
      ∧ (int64_bytes r.offset).length = 8 ∧ int64_of_bytes (int64_bytes r.offset) = r.offset
      ∧ (int64_bytes r.size).length = 8 ∧ int64_of_bytes (int64_bytes r.size) = r.size
      ∧ slice (r.serialize b) b.length H = r.handle.val
      ∧ slice (r.serialize b) (b.length + H) 8 = int64_bytes r.offset
      ∧ slice (r.serialize b) (b.length + H + 8) 8 = int64_bytes r.size)
    ∧ ∃ out : IpcDevicePtr H,
        IpcDevicePtr.from_buffer buf cursor = some (out, cursor + width H)
        ∧ out.handle.val = slice buf cursor H
        ∧ out.offset = int64_of_bytes (slice buf (cursor + H) 8)
        ∧ out.size = int64_of_bytes (slice buf (cursor + H + 8) 8) := by
  refine ⟨⟨?_, r.handle.property, int64_bytes_length _, int64_of_bytes_bytes _,
    int64_bytes_length _, int64_of_bytes_bytes _, ?_, ?_, ?_⟩, ?_⟩
  · rw [serialize_eq]
    simp
  · rw [serialize_eq]
    exact slice_mid b _ _ _ _ rfl r.handle.property.symm
  · rw [serialize_eq, ← List.append_assoc b]
    exact slice_mid (b ++ r.handle.val) _ _ _ _ (by simp [r.handle.property])
      (int64_bytes_length _).symm
  · rw [serialize_eq, ← List.append_assoc b, ← List.append_assoc (b ++ r.handle.val)]
    have := slice_mid (b ++ r.handle.val ++ int64_bytes r.offset) (int64_bytes r.size) []
      (b.length + H + 8) 8 (by simp [r.handle.property, int64_bytes_length]; omega)
      (int64_bytes_length _).symm
    simpa using this
  · unfold width at hc
    unfold IpcDevicePtr.from_buffer memcpy_from
    rw [dif_pos (by omega)]
    simp only []
    rw [dif_pos (by omega)]
    simp only []
    rw [dif_pos (by omega)]
    exact ⟨_, rfl, rfl, rfl, rfl⟩

/-- Witness of C3: the sample record appended to the one-byte buffer `[7]`, read back
at cursor 1. -/
theorem serialize_layout_witness :
    1 + width 2 ≤ (sample_record.serialize [7]).length
      ∧ (sample_record.serialize [7]
            = [7] ++ sample_record.handle.val ++ int64_bytes sample_record.offset
                ++ int64_bytes sample_record.size
          ∧ sample_record.handle.val.length = 2
          ∧ (int64_bytes sample_record.offset).length = 8
          ∧ int64_of_bytes (int64_bytes sample_record.offset) = sample_record.offset
          ∧ (int64_bytes sample_record.size).length = 8
          ∧ int64_of_bytes (int64_bytes sample_record.size) = sample_record.size
          ∧ slice (sample_record.serialize [7]) [(7 : Byte)].length 2
              = sample_record.handle.val
          ∧ slice (sample_record.serialize [7]) ([(7 : Byte)].length + 2) 8
              = int64_bytes sample_record.offset
          ∧ slice (sample_record.serialize [7]) ([(7 : Byte)].length + 2 + 8) 8
              = int64_bytes sample_record.size)
      ∧ ∃ out : IpcDevicePtr 2,
          IpcDevicePtr.from_buffer (sample_record.serialize [7]) 1 = some (out, 1 + width 2)
          ∧ out.handle.val = slice (sample_record.serialize [7]) 1 2
          ∧ out.offset = int64_of_bytes (slice (sample_record.serialize [7]) (1 + 2) 8)
          ∧ out.size = int64_of_bytes (slice (sample_record.serialize [7]) (1 + 2 + 8) 8) :=
  ⟨by decide,
    serialize_layout [7] sample_record (sample_record.serialize [7]) 1 (by decide)⟩

/-- Claim C7: `serialize` keeps the first `|b|` bytes of the buffer and makes its
length `|b| + width`, with `width = sizeof(handle) + 16` whatever the record; `k`
calls on an empty buffer give `k * width` bytes, with the encoding of record `i` at
byte offset `i * width`. -/
theorem serialize_frame {H : Nat} (b : List Byte) (r : IpcDevicePtr H)
    (rs : List (IpcDevicePtr H)) :
    (r.serialize b).take b.length = b
      ∧ (r.serialize b).length = b.length + width H
      ∧ width H = H + 16
      ∧ (serialize_all rs []).length = rs.length * width H
      ∧ ∀ i : Fin rs.length,
          slice (serialize_all rs []) (i.val * width H) (width H) = (rs.get i).serialize []
          ∧ IpcDevicePtr.from_buffer (serialize_all rs []) (i.val * width H)
              = some (rs.get i, (i.val + 1) * width H) := by
  have hblk : ∀ x ∈ rs.map (fun r : IpcDevicePtr H => r.serialize []),
      x.length = width H := by
    intro x hx
    obtain ⟨r0, _, rfl⟩ := List.mem_map.mp hx
    simpa using serialize_length r0 []
  have hslice : ∀ i : Fin rs.length,
      slice (serialize_all rs []) (i.val * width H) (width H) = (rs.get i).serialize [] := by
    intro i
    rw [serialize_all_eq, List.nil_append,
      slice_flatten (width H) _ hblk i.val (by simp)]
    simp
  have hlen : (serialize_all rs []).length = rs.length * width H := by
    rw [serialize_all_eq, List.nil_append, List.length_flatten]
    rw [List.map_map, List.map_congr_left (g := fun _ => width H)
      (by intro a _; simpa using serialize_length a [])]
    simp
  refine ⟨?_, serialize_length r b, rfl, hlen, fun i => ⟨hslice i, ?_⟩⟩
  · rw [serialize_append, List.take_left]
  · have hs := hslice i
    unfold slice at hs
    have hdec : serialize_all rs []
        = (serialize_all rs []).take (i.val * width H)
          ++ ((rs.get i).serialize []
            ++ (serialize_all rs []).drop (i.val * width H + width H)) := by
      rw [← hs, ← List.drop_drop, List.take_append_drop, List.take_append_drop]
    have hi : (i.val + 1) * width H ≤ rs.length * width H :=
      Nat.mul_le_mul_right _ i.isLt
    have hpre : ((serialize_all rs []).take (i.val * width H)).length = i.val * width H := by
      rw [List.length_take, hlen]
      have : i.val * width H ≤ (i.val + 1) * width H :=
        Nat.mul_le_mul_right _ (Nat.le_succ _)
      omega
    have := from_buffer_serialize (rs.get i)
      ((serialize_all rs []).take (i.val * width H))
      ((serialize_all rs []).drop (i.val * width H + width H))
    rw [serialize_append, List.append_assoc, ← hdec, hpre] at this
    rw [this, Nat.succ_mul]

/-! ## `get_ipc_ptr` -/

theorem wrap64_of_range (z : Int)
    (h : -9223372036854775808 ≤ z ∧ z < 9223372036854775808) : (wrap64 z).val = z := by
  simp only [wrap64]
  omega

theorem ptrdiff_in_allocation (base S p : Nat) (h : InAllocation base S p) :
    (ptrdiff p base).val = (p : Int) - (base : Int)
      ∧ 0 ≤ (ptrdiff p base).val ∧ (ptrdiff p base).val < (S : Int) := by
  obtain ⟨h1, h2, h3⟩ := h
  have e : (ptrdiff p base).val = (p : Int) - (base : Int) :=
    wrap64_of_range _ (by omega)
  rw [e]
  omega

theorem check_cu_status_ok {H : Nat} (d : Driver H) :
    check_cu_status d CUDA_SUCCESS = ([], Except.ok ()) := by
  simp [check_cu_status]

theorem check_cu_status_error {H : Nat} (d : Driver H) (res : Nat) (h : res ≠ CUDA_SUCCESS) :
    check_cu_status d res = ([DriverCall.cuGetErrorString res],
      Except.error (if (d.cuGetErrorString res).1 ≠ CUDA_SUCCESS
        then CUDF_FAIL "Unable to get CU error explanation."
        else cudf_error.logic_error (d.cuGetErrorString res).2)) := by
  unfold check_cu_status
  rw [if_pos h]
  by_cases h2 : (d.cuGetErrorString res).1 ≠ CUDA_SUCCESS
  · rw [if_pos h2, if_pos h2]
  · rw [if_neg h2, if_neg h2]

theorem get_ipc_ptr_success {H : Nat} (d : Driver H) (ptr : Nat) (size : int64_t)
    (hq : (d.cuMemGetAddressRange ptr).1 = CUDA_SUCCESS)
    (ht : (d.cudaIpcGetMemHandle ptr).1 = cudaSuccess) :
    get_ipc_ptr d ptr size
      = ([DriverCall.cuMemGetAddressRange ptr, DriverCall.cudaIpcGetMemHandle ptr],
          Except.ok ⟨(d.cudaIpcGetMemHandle ptr).2,
            ptrdiff ptr (d.cuMemGetAddressRange ptr).2.1, size⟩) := by
  unfold get_ipc_ptr
  simp only [hq, check_cu_status_ok, ht, ne_eq, not_true_eq_false, if_false]
  rfl

theorem get_ipc_ptr_query_failed {H : Nat} (d : Driver H) (ptr : Nat) (size : int64_t)
    (hq : (d.cuMemGetAddressRange ptr).1 ≠ CUDA_SUCCESS) :
    get_ipc_ptr d ptr size
      = ([DriverCall.cuMemGetAddressRange ptr,
          DriverCall.cuGetErrorString (d.cuMemGetAddressRange ptr).1],
        Except.error (if (d.cuGetErrorString (d.cuMemGetAddressRange ptr).1).1 ≠ CUDA_SUCCESS
          then CUDF_FAIL "Unable to get CU error explanation."
          else cudf_error.logic_error (d.cuGetErrorString (d.cuMemGetAddressRange ptr).1).2)) := by
  unfold get_ipc_ptr
  simp only [check_cu_status_error d _ hq]

theorem get_ipc_ptr_export_failed {H : Nat} (d : Driver H) (ptr : Nat) (size : int64_t)
    (hq : (d.cuMemGetAddressRange ptr).1 = CUDA_SUCCESS)
    (ht : (d.cudaIpcGetMemHandle ptr).1 ≠ cudaSuccess) :
    get_ipc_ptr d ptr size
      = ([DriverCall.cuMemGetAddressRange ptr, DriverCall.cudaIpcGetMemHandle ptr],
          Except.error (cudf_error.cuda_error (d.cudaIpcGetMemHandle ptr).1)) := by
  unfold get_ipc_ptr
  simp only [hq, check_cu_status_ok, ht, ne_eq, not_false_eq_true, if_true]
  rfl

/-- Claim C4: when the address-range query and the token export both succeed (and the
difference of `ptr` and the reported base is a `ptrdiff_t`), `get_ipc_ptr` returns the
record of the exported token, of offset `ptr - base` and of the size it was given;
so `base + offset` is `ptr`. -/
theorem get_ipc_ptr_record {H : Nat} (d : Driver H) (ptr : Nat) (size : int64_t)
    (hq : (d.cuMemGetAddressRange ptr).1 = CUDA_SUCCESS)
    (ht : (d.cudaIpcGetMemHandle ptr).1 = cudaSuccess)
    (hd : -9223372036854775808 ≤ (ptr : Int) - ((d.cuMemGetAddressRange ptr).2.1 : Int)
      ∧ (ptr : Int) - ((d.cuMemGetAddressRange ptr).2.1 : Int) < 9223372036854775808) :
    ∃ r : IpcDevicePtr H, (get_ipc_ptr d ptr size).2 = Except.ok r
      ∧ r.handle = (d.cudaIpcGetMemHandle ptr).2
      ∧ r.offset.val = (ptr : Int) - ((d.cuMemGetAddressRange ptr).2.1 : Int)
      ∧ r.size = size
      ∧ ((d.cuMemGetAddressRange ptr).2.1 : Int) + r.offset.val = (ptr : Int) := by
  rw [get_ipc_ptr_success d ptr size hq ht]
  refine ⟨_, rfl, rfl, ?_, rfl, ?_⟩
  · exact wrap64_of_range _ hd
  · have : (ptrdiff ptr (d.cuMemGetAddressRange ptr).2.1).val
        = (ptr : Int) - ((d.cuMemGetAddressRange ptr).2.1 : Int) := wrap64_of_range _ hd
    simp only [this]
    omega

/-- Witness of C4: the sample driver at address 4104 of its allocation. -/
theorem get_ipc_ptr_record_witness :
    (sample_driver.cuMemGetAddressRange 4104).1 = CUDA_SUCCESS
      ∧ (sample_driver.cudaIpcGetMemHandle 4104).1 = cudaSuccess
      ∧ ∃ r : IpcDevicePtr 8, (get_ipc_ptr sample_driver 4104 sample_size).2 = Except.ok r
          ∧ r.handle = (sample_driver.cudaIpcGetMemHandle 4104).2
          ∧ r.offset.val = ((4104 : Nat) : Int)
              - ((sample_driver.cuMemGetAddressRange 4104).2.1 : Int)
          ∧ r.size = sample_size
          ∧ ((sample_driver.cuMemGetAddressRange 4104).2.1 : Int) + r.offset.val
              = ((4104 : Nat) : Int) :=
  ⟨by decide, by decide,
    get_ipc_ptr_record sample_driver 4104 sample_size (by decide) (by decide) (by decide)⟩

/-- Counterexample to C5: address 4104 lies inside the allocation of 16 bytes at 4096,
and `get_ipc_ptr` with size 100 returns a record of offset 8 and size 100: its range
ends 92 bytes past the end of the allocation. -/
theorem get_ipc_ptr_range_counterexample :
    InAllocation 4096 16 4104
      ∧ sample_driver.cuMemGetAddressRange 4104 = (CUDA_SUCCESS, 4096, 16)
      ∧ ∃ r : IpcDevicePtr 8, (get_ipc_ptr sample_driver 4104 large_size).2 = Except.ok r
          ∧ r.offset.val = 8 ∧ r.size.val = 100
          ∧ ¬ (r.offset.val + large_size.val ≤ ((16 : Nat) : Int)) :=
  ⟨by decide, rfl, _, rfl, by decide, by decide, by decide⟩

/-- Claim C5, amended: for a pointer inside a live allocation of `S` bytes and a
successful export, `get_ipc_ptr` returns a record whose size is the requested `n`,
unchecked, and `offset + n ≤ S` holds exactly when the caller's range
`[ptr, ptr + n)` ends inside the allocation. -/
theorem get_ipc_ptr_range_iff {H : Nat} (d : Driver H) (ptr base S : Nat) (n : int64_t)
    (hq : d.cuMemGetAddressRange ptr = (CUDA_SUCCESS, base, S))
    (hin : InAllocation base S ptr)
    (ht : (d.cudaIpcGetMemHandle ptr).1 = cudaSuccess) :
    ∃ r : IpcDevicePtr H, (get_ipc_ptr d ptr n).2 = Except.ok r
      ∧ r.size = n
      ∧ (r.offset.val + n.val ≤ (S : Int) ↔ (ptr : Int) + n.val ≤ (base : Int) + (S : Int)) := by
  have hq1 : (d.cuMemGetAddressRange ptr).1 = CUDA_SUCCESS := by rw [hq]
  rw [get_ipc_ptr_success d ptr n hq1 ht]
  refine ⟨_, rfl, rfl, ?_⟩
  have hb : (d.cuMemGetAddressRange ptr).2.1 = base := by rw [hq]
  simp only [hb]
  have := (ptrdiff_in_allocation base S ptr hin).1
  omega

/-- Witness of C5 amended: the sample driver at address 4104 with size 8. -/
theorem get_ipc_ptr_range_iff_witness :
    sample_driver.cuMemGetAddressRange 4104 = (CUDA_SUCCESS, 4096, 16)
      ∧ InAllocation 4096 16 4104
      ∧ (sample_driver.cudaIpcGetMemHandle 4104).1 = cudaSuccess
      ∧ ∃ r : IpcDevicePtr 8, (get_ipc_ptr sample_driver 4104 sample_size).2 = Except.ok r
          ∧ r.size = sample_size
          ∧ (r.offset.val + sample_size.val ≤ ((16 : Nat) : Int)
              ↔ ((4104 : Nat) : Int) + sample_size.val
                  ≤ ((4096 : Nat) : Int) + ((16 : Nat) : Int)) :=
  ⟨rfl, by decide, by decide,
    get_ipc_ptr_range_iff sample_driver 4104 4096 16 sample_size rfl (by decide) (by decide)⟩

/-- Claim C6: `get_ipc_ptr` returns a record if and only if the address-range query
and the token export both succeed, and throws otherwise; when the query fails the
export is not called: the only driver calls are the query and the look-up of its
error string. -/
theorem get_ipc_ptr_fails {H : Nat} (d : Driver H) (ptr : Nat) (size : int64_t) :
    ((∃ r, (get_ipc_ptr d ptr size).2 = Except.ok r)
        ↔ (d.cuMemGetAddressRange ptr).1 = CUDA_SUCCESS
          ∧ (d.cudaIpcGetMemHandle ptr).1 = cudaSuccess)
      ∧ ((∃ e, (get_ipc_ptr d ptr size).2 = Except.error e)
        ↔ (d.cuMemGetAddressRange ptr).1 ≠ CUDA_SUCCESS
          ∨ (d.cudaIpcGetMemHandle ptr).1 ≠ cudaSuccess)
      ∧ ((d.cuMemGetAddressRange ptr).1 ≠ CUDA_SUCCESS →
          (∃ what, (get_ipc_ptr d ptr size).2 = Except.error (cudf_error.logic_error what))
          ∧ (get_ipc_ptr d ptr size).1
              = [DriverCall.cuMemGetAddressRange ptr,
                  DriverCall.cuGetErrorString (d.cuMemGetAddressRange ptr).1]
          ∧ ∀ p, DriverCall.cudaIpcGetMemHandle p ∉ (get_ipc_ptr d ptr size).1)
      ∧ ((d.cuMemGetAddressRange ptr).1 = CUDA_SUCCESS →
          (d.cudaIpcGetMemHandle ptr).1 ≠ cudaSuccess →
          (get_ipc_ptr d ptr size).2
            = Except.error (cudf_error.cuda_error (d.cudaIpcGetMemHandle ptr).1)) := by
  by_cases hq : (d.cuMemGetAddressRange ptr).1 = CUDA_SUCCESS
  · by_cases ht : (d.cudaIpcGetMemHandle ptr).1 = cudaSuccess
    · rw [get_ipc_ptr_success d ptr size hq ht]
      simp [hq, ht]
    · rw [get_ipc_ptr_export_failed d ptr size hq ht]
      simp [hq, ht]
  · rw [get_ipc_ptr_query_failed d ptr size hq]
    refine ⟨?_, ?_, ?_, ?_⟩
    · constructor
      · rintro ⟨r, h⟩
        cases h
      · rintro ⟨h, _⟩
        exact absurd h hq
    · exact ⟨fun _ => Or.inl hq, fun _ => ⟨_, rfl⟩⟩
    · intro _
      refine ⟨?_, rfl, fun p hp => by simp at hp⟩
      by_cases h2 : (d.cuGetErrorString (d.cuMemGetAddressRange ptr).1).1 = CUDA_SUCCESS
      · refine ⟨(d.cuGetErrorString (d.cuMemGetAddressRange ptr).1).2, ?_⟩
        simp only [h2, ne_eq, not_true_eq_false, if_false]
      · refine ⟨"Unable to get CU error explanation.", ?_⟩
        simp only [h2, ne_eq, not_false_eq_true, if_true, CUDF_FAIL]
    · intro h
      exact absurd h hq

/-- Claim C8: for a pointer inside the allocation `[base, base + S)` that the
address-range query reports, and a successful export, `get_ipc_ptr` returns a record
with `0 ≤ offset` and `offset < S`. -/
theorem get_ipc_ptr_offset_bounds {H : Nat} (d : Driver H) (ptr base S : Nat) (n : int64_t)
    (hq : d.cuMemGetAddressRange ptr = (CUDA_SUCCESS, base, S))
    (hin : InAllocation base S ptr)
    (ht : (d.cudaIpcGetMemHandle ptr).1 = cudaSuccess) :
    ∃ r : IpcDevicePtr H, (get_ipc_ptr d ptr n).2 = Except.ok r
      ∧ 0 ≤ r.offset.val ∧ r.offset.val < (S : Int) := by
  have hq1 : (d.cuMemGetAddressRange ptr).1 = CUDA_SUCCESS := by rw [hq]
  rw [get_ipc_ptr_success d ptr n hq1 ht]
  refine ⟨_, rfl, ?_⟩
  have hb : (d.cuMemGetAddressRange ptr).2.1 = base := by rw [hq]
  simp only [hb]
  exact (ptrdiff_in_allocation base S ptr hin).2

/-- Witness of C8: the sample driver at the last address, 4111, of its allocation. -/
theorem get_ipc_ptr_offset_bounds_witness :
    sample_driver.cuMemGetAddressRange 4111 = (CUDA_SUCCESS, 4096, 16)
      ∧ InAllocation 4096 16 4111
      ∧ (sample_driver.cudaIpcGetMemHandle 4111).1 = cudaSuccess
      ∧ ∃ r : IpcDevicePtr 8, (get_ipc_ptr sample_driver 4111 large_size).2 = Except.ok r
          ∧ 0 ≤ r.offset.val ∧ r.offset.val < ((16 : Nat) : Int) :=
  ⟨rfl, by decide, by decide,
    get_ipc_ptr_offset_bounds sample_driver 4111 4096 16 large_size rfl (by decide)
      (by decide)⟩

theorem slice_add (buf : List Byte) (pos m n : Nat) :
    slice buf pos (m + n) = slice buf pos m ++ slice buf (pos + m) n := by
  unfold slice
  rw [List.take_add, List.drop_drop]

theorem slice_length (buf : List Byte) (pos n : Nat) (h : pos + n ≤ buf.length) :
    (slice buf pos n).length = n := by
  unfold slice
  rw [List.length_take, List.length_drop]
  omega

theorem from_buffer_in_bounds {H : Nat} (buf : List Byte) (cursor : Nat)
    (hc : cursor + width H ≤ buf.length) :
    ∃ out : IpcDevicePtr H,
      IpcDevicePtr.from_buffer buf cursor = some (out, cursor + width H)
      ∧ out.handle.val = slice buf cursor H
      ∧ out.offset = int64_of_bytes (slice buf (cursor + H) 8)
      ∧ out.size = int64_of_bytes (slice buf (cursor + H + 8) 8) := by
  unfold width at hc
  unfold IpcDevicePtr.from_buffer memcpy_from
  rw [dif_pos (by omega)]
  simp only []
  rw [dif_pos (by omega)]
  simp only []
  rw [dif_pos (by omega)]
  exact ⟨_, rfl, rfl, rfl, rfl⟩

theorem serialize_from_buffer {H : Nat} (buf : List Byte) (cursor : Nat)
    (hc : cursor + width H ≤ buf.length) :
    ∃ out : IpcDevicePtr H,
      IpcDevicePtr.from_buffer buf cursor = some (out, cursor + width H)
      ∧ out.serialize [] = slice buf cursor (width H) := by
  obtain ⟨out, h1, hh, ho, hs⟩ := from_buffer_in_bounds (H := H) buf cursor hc
  refine ⟨out, h1, ?_⟩
  unfold width at hc
  rw [serialize_eq, hh, ho, hs,
    int64_bytes_of_bytes _ (slice_length buf (cursor + H) 8 (by omega)),
    int64_bytes_of_bytes _ (slice_length buf (cursor + H + 8) 8 (by omega))]
  unfold width
  rw [slice_add, slice_add, Nat.add_assoc cursor H 8]
  simp

theorem from_buffer_all_serialize_all {H : Nat} (rs : List (IpcDevicePtr H)) :
    ∀ b : List Byte, from_buffer_all (serialize_all rs b) rs.length b.length
      = some (rs, b.length + rs.length * width H) := by
  induction rs with
  | nil => intro b; simp [from_buffer_all]
  | cons r rs ih =>
    intro b
    have step : serialize_all (r :: rs) b = serialize_all rs (r.serialize b) := rfl
    have hfirst : IpcDevicePtr.from_buffer (serialize_all rs (r.serialize b)) b.length
        = some (r, b.length + width H) := by
      rw [serialize_all_eq]
      exact from_buffer_serialize r b _
    have hrest := ih (r.serialize b)
    rw [serialize_length] at hrest
    rw [step]
    simp only [List.length_cons, from_buffer_all, hfirst, hrest]
    congr 2
    rw [Nat.succ_mul]
    omega

theorem serialize_all_length {H : Nat} (rs : List (IpcDevicePtr H)) (b : List Byte) :
    (serialize_all rs b).length = b.length + rs.length * width H := by
  induction rs generalizing b with
  | nil => simp [serialize_all]
  | cons r rs ih =>
    have step : serialize_all (r :: rs) b = serialize_all rs (r.serialize b) := rfl
    rw [step, ih, serialize_length, List.length_cons, Nat.succ_mul]
    omega

theorem from_buffer_at_index {H : Nat} (rs : List (IpcDevicePtr H)) :
    ∀ (b : List Byte) (i : Fin rs.length),
      IpcDevicePtr.from_buffer (serialize_all rs b) (b.length + i.val * width H)
        = some (rs.get i, b.length + (i.val + 1) * width H) := by
  induction rs with
  | nil => intro b i; exact absurd i.isLt (Nat.not_lt_zero _)
  | cons r rs ih =>
    intro b i
    have step : serialize_all (r :: rs) b = serialize_all rs (r.serialize b) := rfl
    rw [step]
    obtain ⟨i, hi⟩ := i
    cases i with
    | zero =>
      rw [serialize_all_eq]
      simpa using from_buffer_serialize r b ((rs.map (fun r => r.serialize [])).flatten)
    | succ i =>
      have hi2 : i < rs.length := by simpa using hi
      have := ih (r.serialize b) ⟨i, hi2⟩
      rw [serialize_length] at this
      have e1 : b.length + (i + 1) * width H = b.length + width H + i * width H := by
        rw [Nat.succ_mul]; omega
      have e2 : b.length + (i + 1 + 1) * width H = b.length + width H + (i + 1) * width H := by
        rw [Nat.succ_mul (i + 1)]; omega
      simp only [List.get_cons_succ]
      rw [e1, e2]
      exact this

/-- Claim C13: `from_buffer` validates nothing: with `width` bytes at the cursor it
succeeds, and serialising the record it decoded into an empty buffer gives back those
`width` bytes; records of negative offset and size exist and are read back; with the
forward round trip, `serialize` and `from_buffer` are inverse bijections between the
records and the byte strings of length `width`. -/
theorem from_buffer_bijection {H : Nat} (buf : List Byte) (cursor : Nat)
    (hc : cursor + width H ≤ buf.length) :
    (∃ out : IpcDevicePtr H,
        IpcDevicePtr.from_buffer buf cursor = some (out, cursor + width H)
        ∧ out.serialize [] = slice buf cursor (width H))
      ∧ (∃ r : IpcDevicePtr H, r.offset.val < 0 ∧ r.size.val < 0
          ∧ IpcDevicePtr.from_buffer (r.serialize []) 0 = some (r, width H))
      ∧ (∀ r : IpcDevicePtr H, (r.serialize []).length = width H
          ∧ IpcDevicePtr.from_buffer (r.serialize []) 0 = some (r, width H))
      ∧ (∀ w : List Byte, w.length = width H →
          ∃ r : IpcDevicePtr H, IpcDevicePtr.from_buffer w 0 = some (r, width H)
            ∧ r.serialize [] = w) := by
  have fwd : ∀ r : IpcDevicePtr H,
      IpcDevicePtr.from_buffer (r.serialize []) 0 = some (r, width H) := by
    intro r
    simpa using from_buffer_serialize r [] []
  refine ⟨serialize_from_buffer buf cursor hc, ?_, ?_, ?_⟩
  · exact ⟨⟨⟨List.replicate H 0, List.length_replicate _ _⟩, minus_one, minus_one⟩,
      (by decide : minus_one.val < 0), (by decide : minus_one.val < 0), fwd _⟩
  · intro r
    exact ⟨by simpa using serialize_length r [], fwd r⟩
  · intro w hw
    obtain ⟨r, h1, h2⟩ := serialize_from_buffer (H := H) w 0 (by omega)
    refine ⟨r, by simpa using h1, ?_⟩
    rw [h2]
    unfold slice
    rw [List.drop_zero, ← hw, List.take_length]

/-- Witness of C13: the bytes of the sample record, of offset -1, behind one other
byte. -/
theorem from_buffer_bijection_witness :
    1 + width 2 ≤ (sample_record.serialize [7]).length
      ∧ ∃ out : IpcDevicePtr 2,
          IpcDevicePtr.from_buffer (sample_record.serialize [7]) 1 = some (out, 1 + width 2)
          ∧ out.serialize [] = slice (sample_record.serialize [7]) 1 (width 2) :=
  ⟨by decide, (from_buffer_bijection (sample_record.serialize [7]) 1 (by decide)).1⟩

/-- Claim C14: for every buffer `b` and list of records `rs`, after serialising the
records in order onto `b`, `|rs|` successive `from_buffer` calls from cursor `|b|` on,
each at the cursor the call before returned, read exactly `rs` in order and end at
`|b| + |rs| * width`, the length of the buffer; call `i` reads record `i` at
`|b| + i * width`, inside the buffer, and the first `|b|` bytes are those of `b`. -/
theorem from_buffer_all_roundtrip {H : Nat} (b : List Byte) (rs : List (IpcDevicePtr H)) :
    from_buffer_all (serialize_all rs b) rs.length b.length
        = some (rs, b.length + rs.length * width H)
      ∧ (serialize_all rs b).length = b.length + rs.length * width H
      ∧ (serialize_all rs b).take b.length = b
      ∧ ∀ i : Fin rs.length,
          b.length + i.val * width H + width H ≤ (serialize_all rs b).length
          ∧ IpcDevicePtr.from_buffer (serialize_all rs b) (b.length + i.val * width H)
              = some (rs.get i, b.length + (i.val + 1) * width H) := by
  refine ⟨from_buffer_all_serialize_all rs b, serialize_all_length rs b, ?_, fun i => ⟨?_, ?_⟩⟩
  · rw [serialize_all_eq, List.take_left]
  · rw [serialize_all_length]
    have : (i.val + 1) * width H ≤ rs.length * width H := Nat.mul_le_mul_right _ i.isLt
    rw [Nat.succ_mul] at this
    omega
  · exact from_buffer_at_index rs b i

/-- Claim C15: `check_cu_status` throws if and only if the status is not
`CUDA_SUCCESS`; for `CUDA_SUCCESS` it returns without a driver call; when it throws,
the error carries the string `cuGetErrorString` gave for the status, or, when that
look-up fails, it is the one `CUDF_FAIL` raises for "Unable to get CU error
explanation.". -/
theorem check_cu_status_raises {H : Nat} (d : Driver H) (res : Nat) :
    ((∃ e, (check_cu_status d res).2 = Except.error e) ↔ res ≠ CUDA_SUCCESS)
      ∧ (res = CUDA_SUCCESS → check_cu_status d res = ([], Except.ok ()))
      ∧ (res ≠ CUDA_SUCCESS → (d.cuGetErrorString res).1 = CUDA_SUCCESS →
          (check_cu_status d res).2
            = Except.error (cudf_error.logic_error (d.cuGetErrorString res).2))
      ∧ (res ≠ CUDA_SUCCESS → (d.cuGetErrorString res).1 ≠ CUDA_SUCCESS →
          (check_cu_status d res).2
              = Except.error (CUDF_FAIL "Unable to get CU error explanation.")
            ∧ CUDF_FAIL "Unable to get CU error explanation."
              = cudf_error.logic_error "Unable to get CU error explanation.") := by
  refine ⟨?_, ?_, ?_, ?_⟩
  · by_cases h : res = CUDA_SUCCESS
    · subst h
      rw [check_cu_status_ok]
      constructor
      · rintro ⟨e, he⟩
        cases he
      · intro h
        exact absurd rfl h
    · rw [check_cu_status_error d res h]
      exact ⟨fun _ => h, fun _ => ⟨_, rfl⟩⟩
  · intro h
    subst h
    exact check_cu_status_ok d
  · intro h h2
    rw [check_cu_status_error d res h]
    simp only [h2, ne_eq, not_true_eq_false, if_false]
  · intro h h2
    refine ⟨?_, rfl⟩
    rw [check_cu_status_error d res h]
    simp only [h2, ne_eq, not_false_eq_true, if_true]

end ipc

namespace io
namespace orc
namespace detail

/-! ## The chunked reader -/

theorem decode_append {Row : Type} (a b : List (RawUnit Row)) :
    decode (a ++ b) = decode a ++ decode b := by
  simp [decode]

theorem plan_pos {Row : Type} (lim : ChunkLimits) (u : RawUnit Row) (us : List (RawUnit Row)) :
    1 ≤ plan lim (u :: us) := by
  simp [plan]

theorem fitting_run_unbounded {Row : Type} (g size bytes : Nat) (us : List (RawUnit Row)) :
    fitting_run ⟨none, none, g⟩ size bytes us = us.length := by
  induction us generalizing size bytes with
  | nil => rfl
  | cons u us ih => simp [fitting_run, within, ih]

theorem read_chunk_final {Row : Type} (lim : ChunkLimits) (buffered : List Row) :
    read_chunk lim ⟨[], buffered, false⟩ = Except.ok (buffered, ⟨[], [], true⟩) := rfl

theorem read_chunk_cons {Row : Type} (lim : ChunkLimits) (u : RawUnit Row)
    (us : List (RawUnit Row)) (buffered : List Row) :
    read_chunk lim ⟨u :: us, buffered, false⟩
      = Except.ok
          ((buffered ++ decode ((u :: us).take (plan lim (u :: us)))).take
              ((buffered ++ decode ((u :: us).take (plan lim (u :: us)))).length
                / lim.output_row_granularity * lim.output_row_granularity),
            ⟨(u :: us).drop (plan lim (u :: us)),
              (buffered ++ decode ((u :: us).take (plan lim (u :: us)))).drop
                ((buffered ++ decode ((u :: us).take (plan lim (u :: us)))).length
                  / lim.output_row_granularity * lim.output_row_granularity),
              ((u :: us).drop (plan lim (u :: us))).isEmpty
                && ((buffered ++ decode ((u :: us).take (plan lim (u :: us)))).drop
                  ((buffered ++ decode ((u :: us).take (plan lim (u :: us)))).length
                    / lim.output_row_granularity * lim.output_row_granularity)).isEmpty⟩) :=
  rfl

theorem read_chunks_exhausted {Row : Type} (lim : ChunkLimits) (fuel : Nat)
    (s : ReadState Row) (h : s.exhausted = true) : read_chunks lim fuel s = ([], s) := by
  cases fuel with
  | zero => rfl
  | succ fuel => simp [read_chunks, has_next, h]

/-- After a successful `read_chunk`, `has_next` says that units or buffered rows
remain. -/
theorem has_next_iff_remaining {Row : Type} (lim : ChunkLimits) (s s1 : ReadState Row)
    (chunk : List Row) (h : read_chunk lim s = Except.ok (chunk, s1)) :
    has_next s1 = true ↔ s1.pending ≠ [] ∨ s1.buffered ≠ [] := by
  obtain ⟨pending, buffered, exhausted⟩ := s
  cases exhausted with
  | true => simp [read_chunk, has_next] at h
  | false =>
    cases pending with
    | nil =>
      rw [read_chunk_final] at h
      cases h
      simp [has_next]
    | cons u us =>
      rw [read_chunk_cons] at h
      cases h
      simp only [has_next, Bool.not_eq_true', Bool.and_eq_false_imp, List.isEmpty_eq_true,
        ne_eq]
      constructor
      · intro h1
        by_cases h2 : List.drop (plan lim (u :: us)) (u :: us) = []
        · exact Or.inr (by simpa using h1 h2)
        · exact Or.inl h2
      · intro h1 h2
        cases h1 with
        | inl h3 => exact absurd h2 h3
        | inr h3 => simpa using h3

theorem has_next_chunked_reader {Row : Type} (sources : List (List (RawUnit Row))) :
    has_next (chunked_reader sources) = true := rfl

theorem read_chunks_flatten {Row : Type} (lim : ChunkLimits) (fuel : Nat) :
    ∀ s : ReadState Row, s.exhausted = false → s.pending.length < fuel →
      (read_chunks lim fuel s).1.flatten = s.buffered ++ decode s.pending
        ∧ has_next (read_chunks lim fuel s).2 = false := by
  induction fuel with
  | zero => intro s _ h; exact absurd h (Nat.not_lt_zero _)
  | succ fuel ih =>
    intro s hs hlen
    obtain ⟨pending, buffered, exhausted⟩ := s
    simp only at hs hlen
    subst hs
    cases pending with
    | nil =>
      simp only [read_chunks, has_next, Bool.not_false, if_true, read_chunk_final]
      rw [read_chunks_exhausted lim fuel _ rfl]
      simp [decode]
    | cons u us =>
      simp only [read_chunks, has_next, Bool.not_false, if_true, read_chunk_cons]
      have hk := plan_pos lim u us
      generalize plan lim (u :: us) = k at hk
      generalize htab : buffered ++ decode ((u :: us).take k) = table
      generalize table.length / lim.output_row_granularity * lim.output_row_granularity = n
      have hall : buffered ++ decode (u :: us)
          = table.take n ++ (table.drop n ++ decode ((u :: us).drop k)) := by
        rw [← List.append_assoc, List.take_append_drop, ← htab, List.append_assoc,
          ← decode_append, List.take_append_drop]
      cases he : ((u :: us).drop k).isEmpty && (table.drop n).isEmpty with
      | true =>
        rw [read_chunks_exhausted lim fuel _ rfl]
        simp only [Bool.and_eq_true, List.isEmpty_eq_true] at he
        rw [hall, he.1, he.2]
        simp [decode, has_next]
      | false =>
        have hlt : ((u :: us).drop k).length < fuel := by
          rw [List.length_drop]
          simp only [List.length_cons] at hlen ⊢
          omega
        have := ih ⟨(u :: us).drop k, table.drop n, false⟩ rfl hlt
        refine ⟨?_, this.2⟩
        simp only [List.flatten_cons, this.1]
        exact hall.symm

theorem reader_read_eq {Row : Type} (sources : List (List (RawUnit Row))) :
    ∃ s1, read_chunk single_shot_limits (chunked_reader sources)
        = Except.ok (decode sources.flatten, s1) ∧ has_next s1 = false := by
  unfold chunked_reader
  cases hp : sources.flatten with
  | nil => exact ⟨⟨[], [], true⟩, by rw [read_chunk_final]; rfl, rfl⟩
  | cons u us =>
    rw [read_chunk_cons]
    have hk : plan single_shot_limits (u :: us) = (u :: us).length := by
      simp [plan, single_shot_limits, fitting_run_unbounded]
    rw [hk]
    simp [single_shot_limits, has_next]

/-- Claim C10: for any limits and sources, the chunked session (`read_chunk` called
while `has_next` is true) stops with `has_next` false, and the concatenation of its
chunks, in order, is the table that the single-shot `reader::read` returns for the
same sources; that read is one `read_chunk` call, after which `has_next` is false. -/
theorem read_chunks_concat_eq_read {Row : Type} (lim : ChunkLimits)
    (sources : List (List (RawUnit Row))) :
    reader_read sources = Except.ok (read_all_chunks lim sources).1.flatten
      ∧ has_next (read_all_chunks lim sources).2 = false
      ∧ (∃ s1, read_chunk single_shot_limits (chunked_reader sources)
            = Except.ok ((read_all_chunks lim sources).1.flatten, s1)
          ∧ has_next s1 = false)
      ∧ (read_all_chunks lim sources).1.flatten = decode sources.flatten := by
  have h := read_chunks_flatten lim (sources.flatten.length + 1) (chunked_reader sources)
    rfl (Nat.lt_succ_self _)
  have hflat : (read_all_chunks lim sources).1.flatten = decode sources.flatten := by
    unfold read_all_chunks
    rw [h.1]
    simp [chunked_reader]
  obtain ⟨s1, hs1, hn⟩ := reader_read_eq sources
  refine ⟨?_, h.2, ⟨s1, by rw [hflat]; exact hs1, hn⟩, hflat⟩
  unfold reader_read
  rw [hs1, hflat]

/-! ## The writer after `skip_close` -/

theorem writer_step_aborted {Row : Type} (s : WriteState Row) (h : s.aborted = true)
    (c : WriterCall Row) : writer_step s c = s := by
  cases c with
  | write table failure => simp [writer_step, writer_write, h]
  | close => simp [writer_step, writer_close, h]
  | skip_close => simp [writer_step, writer_skip_close, h]

theorem writer_run_aborted {Row : Type} (calls : List (WriterCall Row)) :
    ∀ s : WriteState Row, s.aborted = true → writer_run s calls = s := by
  induction calls with
  | nil => intro s _; rfl
  | cons c cs ih =>
    intro s h
    have step : writer_run s (c :: cs) = writer_run (writer_step s c) cs := rfl
    rw [step, writer_step_aborted s h c]
    exact ih s h

theorem writer_skip_close_state {Row : Type} (s : WriteState Row) :
    (writer_skip_close s).2.aborted = true ∧ (writer_skip_close s).2.sink = s.sink := by
  unfold writer_skip_close
  cases h : s.aborted <;> simp [h]

theorem has_trailer_append {Row : Type} (a b : List (SinkItem Row)) :
    has_trailer (a ++ b) = (has_trailer a || has_trailer b) := by
  simp [has_trailer]

theorem writer_write_trailer {Row : Type} (s : WriteState Row) (table : List Row)
    (failure : Option (List Nat)) :
    has_trailer (writer_write s table failure).2.sink = has_trailer s.sink := by
  unfold writer_write
  split
  · rfl
  · split
    · rfl
    · cases failure with
      | none => simp [has_trailer_append, has_trailer, SinkItem.is_trailer]
      | some bytes => simp [has_trailer_append, has_trailer, SinkItem.is_trailer]

theorem writer_run_writes_trailer {Row : Type} (ws : List (List Row × Option (List Nat))) :
    ∀ s : WriteState Row,
      has_trailer (writer_run s (write_calls ws)).sink = has_trailer s.sink := by
  induction ws with
  | nil => intro s; rfl
  | cons w ws ih =>
    intro s
    have step : writer_run s (write_calls (w :: ws))
        = writer_run (writer_write s w.1 w.2).2 (write_calls ws) := rfl
    rw [step, ih, writer_write_trailer]

theorem writer_run_append {Row : Type} (s : WriteState Row) (a b : List (WriterCall Row)) :
    writer_run s (a ++ b) = writer_run (writer_run s a) b := by
  simp [writer_run, List.foldl_append]

/-- Claim C12: `skip_close` writes nothing, and once it has been called no later call
writes anything to the sink: a later `close` fails and leaves the sink as it was, and
destruction adds nothing, so the sink's content stays what it was when `skip_close`
was called; a session of writes followed by `skip_close` and any further calls ends,
destruction included, with no footer or postscript in the sink. -/
theorem skip_close_no_trailer {Row : Type} (s : WriteState Row)
    (later : List (WriterCall Row)) (single_write_mode : Bool)
    (ws : List (List Row × Option (List Nat))) :
    (writer_skip_close s).2.sink = s.sink
      ∧ (writer_run (writer_skip_close s).2 later).sink = s.sink
      ∧ writer_close (writer_run (writer_skip_close s).2 later)
          = (Except.error WriterError.sequencing, (writer_skip_close s).2)
      ∧ writer_destroy (writer_run (writer_skip_close s).2 later) = s.sink
      ∧ has_trailer (writer_destroy (writer_run (writer_skip_close s).2 later))
          = has_trailer s.sink
      ∧ has_trailer
          (writer_run (writer Row single_write_mode)
            (write_calls ws ++ WriterCall.skip_close :: later)).sink = false
      ∧ has_trailer
          (writer_destroy (writer_run (writer Row single_write_mode)
            (write_calls ws ++ WriterCall.skip_close :: later))) = false := by
  obtain ⟨hab, hsink⟩ := writer_skip_close_state s
  have hrun := writer_run_aborted later _ hab
  have hdes : writer_destroy (writer_skip_close s).2 = s.sink := by
    unfold writer_destroy
    rw [hab, Bool.or_true, if_pos rfl, hsink]
  have hfresh : ∀ calls : List (WriterCall Row),
      writer_run (writer Row single_write_mode)
          (write_calls ws ++ WriterCall.skip_close :: calls)
        = (writer_skip_close (writer_run (writer Row single_write_mode) (write_calls ws))).2 := by
    intro calls
    rw [writer_run_append]
    have step : ∀ t : WriteState Row, writer_run t (WriterCall.skip_close :: calls)
        = writer_run (writer_skip_close t).2 calls := fun _ => rfl
    rw [step]
    exact writer_run_aborted calls _ (writer_skip_close_state _).1
  have hclean : has_trailer
      (writer_run (writer Row single_write_mode) (write_calls ws)).sink = false := by
    rw [writer_run_writes_trailer]
    rfl
  refine ⟨hsink, ?_, ?_, ?_, ?_, ?_, ?_⟩
  · rw [hrun, hsink]
  · rw [hrun]
    unfold writer_close
    rw [hab, Bool.or_true, if_pos rfl]
  · rw [hrun, hdes]
  · rw [hrun, hdes]
  · rw [hfresh, (writer_skip_close_state _).2, hclean]
  · rw [hfresh]
    unfold writer_destroy
    rw [(writer_skip_close_state _).1, Bool.or_true, if_pos rfl,
      (writer_skip_close_state _).2, hclean]

/-- Without `skip_close` the trailer is written: `close` on a writer that is neither
finalized nor aborted puts a footer and a postscript in the sink, and so does
destruction. -/
theorem writer_close_trailer {Row : Type} (s : WriteState Row) (hf : s.finalized = false)
    (ha : s.aborted = false) :
    has_trailer (writer_close s).2.sink = true ∧ has_trailer (writer_destroy s) = true := by
  unfold writer_close writer_destroy
  simp [hf, ha, has_trailer_append, has_trailer, trailer, SinkItem.is_trailer]

end detail
end orc
end io

end cudf
